import Mathlib

/-!
A shallow embedding of `src/server/pkg/collection/collection.go` from the
pachyderm repository: a typed collection abstraction over an etcd-like
key-value store, with secondary-index maintenance, an integer counter view,
read-only iteration, and a watch-event translator.

Conventions of the embedding:
* The transactional execution context (the `STM` interface; its
  implementation is not part of the sources under verification) is modelled
  from the spec, section 6: `Get(path) -> text-or-empty`, `Put`, `Del`,
  `DelAll`, with writes of the same transaction visible to its later reads.
  We keep the ordered log of queued operations so that ordering claims are
  expressible.
* Machine strings are Lean `String`s; the store maps paths to strings, the
  empty string meaning "absent" (exactly as the Go code treats it).
* Record serialization (`proto.Message.String` / `proto.UnmarshalText`) is
  an external collaborator; it is modelled as a concrete text codec with a
  genuine failure case, which is all the code under verification observes.
* `path.Join`, `path.Clean`, `path.Base`, `strings.TrimRight` and
  `strconv.Atoi` / `strconv.Itoa` are translated faithfully from the Go
  standard library, since the collection's path derivation goes through
  them.
-/

/-! ## The key-value store and the transactional context -/

/-- A store snapshot: an association list from paths to string values.
The empty string encodes absence, as in the Go code (`stm.Get` returns
`""` for a missing key). Newer pairs are consed at the front. -/
def Store : Type := List (String × String)

instance : DecidableEq Store :=
  inferInstanceAs (DecidableEq (List (String × String)))

/-- Read a path; the first (newest) binding wins, absent keys read as `""`. -/
def Store.get : Store → String → String
  | [], _ => ""
  | (k', v) :: rest, k => if k = k' then v else Store.get rest k

/-- Bind a path to a value. -/
def Store.put (st : Store) (k v : String) : Store := (k, v) :: st

/-- Delete a path (bind it to the empty string, i.e. absent). -/
def Store.del (st : Store) (k : String) : Store := (k, "") :: st

/-- Delete every path that starts with the given string. -/
def Store.delAll (st : Store) (p : String) : Store :=
  st.filter (fun kv => !(p.data.isPrefixOf kv.1.data))

/-- One operation queued on a transaction. -/
inductive Op
  | put (k v : String)
  | del (k : String)
  | delAll (p : String)
  deriving DecidableEq

/-- Effect of one queued operation on a store snapshot. -/
def applyOp (st : Store) : Op → Store
  | Op.put k v => st.put k v
  | Op.del k => st.del k
  | Op.delAll p => st.delAll p

/-- Modelled from the spec: the transactional execution context (`STM`,
spec section 6; its implementation `stm.go` is not among the sources).  It
exposes `Get/Put/Del/DelAll`; all operations of one context take effect
atomically at commit, and writes are visible to later reads of the same
context (spec section 5).  We record the base snapshot the transaction
reads from plus the ordered log of queued operations. -/
structure STM where
  base : Store
  log : List Op
  deriving DecidableEq

/-- The store as currently visible inside the transaction. -/
def STM.eval (s : STM) : Store := s.log.foldl applyOp s.base

/-- Go `stm.Get`: read through the transaction (sees its own queued writes). -/
def STM.get (s : STM) (k : String) : String := (s.eval).get k

/-- Go `stm.Put`: queue a write. -/
def STM.put (s : STM) (k v : String) : STM := ⟨s.base, s.log ++ [Op.put k v]⟩

/-- Go `stm.Del`: queue a deletion. -/
def STM.del (s : STM) (k : String) : STM := ⟨s.base, s.log ++ [Op.del k]⟩

/-- Go `stm.DelAll`: queue a range deletion. -/
def STM.delAll (s : STM) (p : String) : STM := ⟨s.base, s.log ++ [Op.delAll p]⟩

/-! ## Records and their text codec -/

/-- A record: a structured value with named string fields.  The Go code
only interacts with records through reflection (`FieldByName` formatted
with `%s`) and the text codec, which this captures. -/
structure Record where
  fields : List (String × String)
  deriving DecidableEq

/-- Reflection-based field access: `reflect.Indirect(r).FieldByName(name)`
formatted with `fmt.Sprintf("%s", f)`. -/
def Record.field (r : Record) (name : String) : String :=
  match r.fields.find? (fun kv => kv.1 == name) with
  | some kv => kv.2
  | none => ""

/-- Join character lists with a separator character. -/
def joinWithChar (sep : Char) : List (List Char) → List Char
  | [] => []
  | [x] => x
  | x :: xs => x ++ sep :: joinWithChar sep xs

/-- Split a character list at every occurrence of the separator. -/
def splitOnChar (sep : Char) : List Char → List (List Char)
  | [] => [[]]
  | c :: cs =>
    let rest := splitOnChar sep cs
    if c = sep then [] :: rest
    else
      match rest with
      | r :: rs => (c :: r) :: rs
      | [] => [[c]]

/-- Modelled from the spec: record text serialization
(`proto.Message.String`) is an external collaborator (spec section 1, out
of scope; section 6).  A record serializes as `name:value` pairs joined by
`;`; a record with no fields serializes to the empty string (as an empty
proto message does). -/
def Record.serialize (r : Record) : String :=
  ⟨joinWithChar ';' (r.fields.map (fun kv => kv.1.data ++ ':' :: kv.2.data))⟩

/-- Parse one `name:value` field; fails when the piece is not of that shape. -/
def parseFieldText (l : List Char) : Option (String × String) :=
  match splitOnChar ':' l with
  | [k, v] => some (⟨k⟩, ⟨v⟩)
  | _ => none

/-- Modelled from the spec: deserialization (`proto.UnmarshalText`), the
inverse direction of the external text codec; it has a genuine failure
case on malformed stored text. -/
def Record.deserialize (s : String) : Option Record :=
  if s.data = [] then some ⟨[]⟩
  else
    match (splitOnChar ';' s.data).mapM parseFieldText with
    | some fs => some ⟨fs⟩
    | none => none

/-! ## The error taxonomy -/

/-- Errors surfaced by collection operations.  `notFound`, `alreadyExists`
and `malformedValue` are the collection's own error structs
(`ErrNotFound`, `ErrExists`, `ErrMalformedValue`); `parseInt` is the error
returned by `strconv.Atoi` itself (a `*strconv.NumError`, which is not an
`ErrMalformedValue`); `unmarshalText` is a deserialization failure
returned as-is from the codec; `storeErr` is a store-level (etcd
transport) failure surfaced unmodified. -/
inductive CollErr
  | notFound (c key : String)
  | alreadyExists (c key : String)
  | malformedValue (c key raw : String)
  | parseInt (raw : String)
  | unmarshalText (raw : String)
  | storeErr (msg : String)
  deriving DecidableEq

/-! ## Integer text conversion (`strconv.Atoi` / `strconv.Itoa`) -/

/-- Value of a decimal digit character. -/
def digitVal (c : Char) : Option Nat :=
  if '0' ≤ c ∧ c ≤ '9' then some (c.toNat - '0'.toNat) else none

/-- Accumulate decimal digits; fails on any non-digit. -/
def parseNatAux : List Char → Nat → Option Nat
  | [], acc => some acc
  | c :: cs, acc =>
    match digitVal c with
    | some d => parseNatAux cs (acc * 10 + d)
    | none => none

/-- One or more decimal digits. -/
def parseNatDigits : List Char → Option Nat
  | [] => none
  | l => parseNatAux l 0

/-- Go `strconv.Atoi`: an optional sign followed by one or more decimal
digits; anything else is rejected.  (Range checking of the 64-bit int is
not modelled; no claim concerns overflow.) -/
def atoi (s : String) : Option Int :=
  match s.data with
  | '+' :: rest => (parseNatDigits rest).map (fun n => (n : Int))
  | '-' :: rest => (parseNatDigits rest).map (fun n => -(n : Int))
  | l => (parseNatDigits l).map (fun n => (n : Int))

/-- Go `strconv.Itoa` on the model integers. -/
def itoa (n : Int) : String :=
  if n < 0 then "-" ++ toString n.natAbs else toString n.natAbs


/-! ## Go `path` package: `Clean`, `Join`, `Base`

The collection derives its store keys through `path.Join`, which cleans the
joined string, so the cleaning algorithm is translated from the Go standard
library (`path/path.go`).  The main loop carries a fuel argument (one unit
per loop iteration; each iteration consumes at least one input character,
so fuel equal to the input length is always enough) to keep the definition
structurally recursive and hence kernel-computable. -/

/-- The backtracking scan of `Clean`'s `..` case: starting from write
position `w`, walk left while above `dotdot` and the character at the
current position is not a separator. -/
def backW (out : List Char) (dotdot : Nat) : Nat → Nat
  | 0 => 0
  | w + 1 =>
    if dotdot < w + 1 ∧ out.getD (w + 1) ' ' ≠ '/' then backW out dotdot w else w + 1

/-- The main loop of Go `path.Clean`, processing the remaining input
against the output buffer `out` and the `..`-barrier `dotdot`. -/
def cleanLoop (rooted : Bool) : Nat → List Char → List Char → Nat → List Char
  | 0, _, out, _ => out
  | _ + 1, [], out, _ => out
  | fuel + 1, c :: cs, out, dotdot =>
    if c = '/' then
      -- empty path element
      cleanLoop rooted fuel cs out dotdot
    else if c = '.' ∧ (cs = [] ∨ cs.head? = some '/') then
      -- "." element
      cleanLoop rooted fuel cs out dotdot
    else if c = '.' ∧ cs.head? = some '.' ∧ (cs.tail = [] ∨ cs.tail.head? = some '/') then
      -- ".." element: remove to last separator
      if dotdot < out.length then
        cleanLoop rooted fuel cs.tail (out.take (backW out dotdot (out.length - 1))) dotdot
      else if rooted = false then
        let out2 := (if 0 < out.length then out ++ ['/'] else out) ++ ['.', '.']
        cleanLoop rooted fuel cs.tail out2 out2.length
      else
        cleanLoop rooted fuel cs.tail out dotdot
    else
      -- real path element: separator if needed, then copy the element
      cleanLoop rooted fuel ((c :: cs).dropWhile (fun x => x ≠ '/'))
        ((if (rooted = true ∧ out.length ≠ 1) ∨ (rooted = false ∧ out.length ≠ 0)
            then out ++ ['/'] else out)
          ++ (c :: cs).takeWhile (fun x => x ≠ '/'))
        dotdot

/-- Go `path.Clean` on character lists. -/
def cleanChars (l : List Char) : List Char :=
  match l with
  | [] => ['.']
  | c :: cs =>
    let out :=
      if c = '/' then cleanLoop true cs.length cs ['/'] 1
      else cleanLoop false (c :: cs).length (c :: cs) [] 0
    if out = [] then ['.'] else out

/-- Go `path.Clean`. -/
def clean (s : String) : String := ⟨cleanChars s.data⟩

/-- Go `path.Join` restricted to two elements, as the code uses it: skip
leading empty elements, join with a separator, and clean. -/
def pathJoin (a b : String) : String :=
  if a = "" then (if b = "" then "" else clean b) else clean (a ++ "/" ++ b)

/-- Go `path.Base`: the last element of the path. -/
def pathBase (s : String) : String :=
  if s = "" then "."
  else
    let l := s.data.reverse.dropWhile (fun c => c = '/')
    let b := l.takeWhile (fun c => c ≠ '/')
    if b = [] then "/" else ⟨b.reverse⟩

/-- Go `strings.TrimRight(s, "/")`: drop all trailing separators. -/
def rstripSlash (s : String) : String :=
  ⟨(s.data.reverse.dropWhile (fun c => c = '/')).reverse⟩


/-! ## The collection and its views (`collection.go`) -/

/-- An index is identified by the name of the record field it indexes. -/
abbrev Index := String

/-- Go `collection`: a prefix plus the declared index list.  (The etcd client
handle is not part of the pure model; read-only operations take a reader
oracle instead.) -/
structure Collection where
  pfx : String
  indexes : List Index
  deriving DecidableEq

/-- Go `NewCollection`: normalize the prefix to end with a separator (only
when it is non-empty). -/
def NewCollection (p : String) (indexes : List Index) : Collection :=
  if p.data ≠ [] ∧ p.data.getLast? ≠ some '/' then ⟨p ++ "/", indexes⟩
  else ⟨p, indexes⟩

/-- Go `collection.path`: the primary path of a key. -/
def Collection.path (c : Collection) (key : String) : String :=
  pathJoin c.pfx key

/-- Go `collection.indexDir`:
`fmt.Sprintf("%s__index_%s/%s", strings.TrimRight(prefix), index, indexVal)`. -/
def Collection.indexDir (c : Collection) (index : Index) (indexVal : String) : String :=
  rstripSlash c.pfx ++ "__index_" ++ index ++ "/" ++ indexVal

/-- Go `collection.indexPath`: `path.Join(indexDir, key)`. -/
def Collection.indexPath (c : Collection) (index : Index) (indexVal : String) (key : String) : String :=
  pathJoin (c.indexDir index indexVal) key

/-- Go `readWriteCollection.indexPathFromVal`: index path computed from the
record's indexed field. -/
def Collection.indexPathFromVal (c : Collection) (val : Record) (index : Index) (key : String) : String :=
  c.indexPath index (val.field index) key

/-- Read a record out of a store snapshot at the primary path — the body
of `readWriteCollection.Get`: empty text is `ErrNotFound`, then the codec
may fail. -/
def Collection.getRecAt (c : Collection) (st : Store) (key : String) : Except CollErr Record :=
  let valStr := st.get (c.path key)
  if valStr = "" then Except.error (CollErr.notFound c.pfx key)
  else
    match Record.deserialize valStr with
    | some r => Except.ok r
    | none => Except.error (CollErr.unmarshalText valStr)

/-- Go `readWriteCollection.Get`: read through the transaction. -/
def Collection.rwGet (c : Collection) (s : STM) (key : String) : Except CollErr Record :=
  c.getRecAt s.eval key

/-- One iteration of `readWriteCollection.Put`'s index-maintenance loop:
if the original record is readable and yields a different index path,
delete the original index path; then write the back-reference only when
the new index path holds no value. -/
def Collection.putIndexStep (c : Collection) (key : String) (val : Record) (s : STM) (index : Index) : STM :=
  let indexPath := c.indexPathFromVal val index key
  let s1 :=
    match c.rwGet s key with
    | Except.ok clone =>
      let originalIndexPath := c.indexPathFromVal clone index key
      if originalIndexPath ≠ indexPath then s.del originalIndexPath else s
    | Except.error _ => s
  if s1.get indexPath = "" then s1.put indexPath key else s1

/-- Go `readWriteCollection.Put`: maintain every index in declaration order,
then write the serialized record to the primary path. -/
def Collection.rwPut (c : Collection) (s : STM) (key : String) (val : Record) : STM :=
  let s1 :=
    if c.indexes.isEmpty then s
    else c.indexes.foldl (c.putIndexStep key val) s
  s1.put (c.path key) val.serialize

/-- Go `readWriteCollection.Create`: `ErrExists` when the primary path holds
a value (leaving the transaction untouched), otherwise exactly `Put`. -/
def Collection.rwCreate (c : Collection) (s : STM) (key : String) (val : Record) :
    Option CollErr × STM :=
  let fullKey := c.path key
  let valStr := s.get fullKey
  if valStr ≠ "" then (some (CollErr.alreadyExists c.pfx key), s)
  else (none, c.rwPut s key val)

/-- Go `readWriteCollection.Delete`: `ErrNotFound` when the primary path is
empty; when a record buffer is supplied and indexes are declared, re-read
the current record into the buffer per index and delete that index path;
finally delete the primary path. -/
def Collection.rwDelete (c : Collection) (s : STM) (key : String) (vals : List Record) :
    Option CollErr × STM :=
  let fullKey := c.path key
  if s.get fullKey = "" then (some (CollErr.notFound c.pfx key), s)
  else
    let s1 :=
      match c.indexes, vals with
      | [], _ => s
      | _, [] => s
      | idxs, val0 :: _ =>
        (idxs.foldl
          (fun (acc : STM × Record) index =>
            match c.rwGet acc.1 key with
            | Except.ok r => (acc.1.del (c.indexPathFromVal r index key), r)
            | Except.error _ => acc)
          (s, val0)).1
    (none, s1.del fullKey)

/-- Go `readWriteCollection.DeleteAll`: one range deletion of the prefix. -/
def Collection.rwDeleteAll (c : Collection) (s : STM) : STM :=
  s.delAll c.pfx

/-! ### The integer transactional view (`readWriteIntCollection`) -/

/-- Go `readWriteIntCollection.Create`. -/
def Collection.intCreate (c : Collection) (s : STM) (key : String) (val : Int) :
    Option CollErr × STM :=
  let fullKey := c.path key
  if s.get fullKey ≠ "" then (some (CollErr.alreadyExists c.pfx key), s)
  else (none, s.put fullKey (itoa val))

/-- Go `readWriteIntCollection.Get`: `ErrNotFound` on empty text; otherwise
`strconv.Atoi`'s own result is returned — including `Atoi`'s own parse
error, not an `ErrMalformedValue`. -/
def Collection.intGet (c : Collection) (s : STM) (key : String) : Except CollErr Int :=
  let valStr := s.get (c.path key)
  if valStr = "" then Except.error (CollErr.notFound c.pfx key)
  else
    match atoi valStr with
    | some n => Except.ok n
    | none => Except.error (CollErr.parseInt valStr)

/-- Go `readWriteIntCollection.Increment`: here a parse failure IS wrapped as
`ErrMalformedValue`. -/
def Collection.intIncrement (c : Collection) (s : STM) (key : String) :
    Option CollErr × STM :=
  let fullKey := c.path key
  let valStr := s.get fullKey
  if valStr = "" then (some (CollErr.notFound c.pfx key), s)
  else
    match atoi valStr with
    | some n => (none, s.put fullKey (itoa (n + 1)))
    | none => (some (CollErr.malformedValue c.pfx key valStr), s)

/-- Go `readWriteIntCollection.Decrement`. -/
def Collection.intDecrement (c : Collection) (s : STM) (key : String) :
    Option CollErr × STM :=
  let fullKey := c.path key
  let valStr := s.get fullKey
  if valStr = "" then (some (CollErr.notFound c.pfx key), s)
  else
    match atoi valStr with
    | some n => (none, s.put fullKey (itoa (n - 1)))
    | none => (some (CollErr.malformedValue c.pfx key valStr), s)

/-- Go `readWriteIntCollection.Delete`. -/
def Collection.intDelete (c : Collection) (s : STM) (key : String) :
    Option CollErr × STM :=
  let fullKey := c.path key
  if s.get fullKey = "" then (some (CollErr.notFound c.pfx key), s)
  else (none, s.del fullKey)

/-! ### The read-only view (`readonlyCollection`) -/

/-- A point read against the live store: `Except.error` is a store-level
(transport) failure; `Except.ok none` means the key has no etcd entry
(`len(resp.Kvs) == 0`); `Except.ok (some v)` is a present entry. -/
abbrev EtcdReader := String → Except CollErr (Option String)

/-- Go `readonlyCollection.Get`: point read, then deserialize. -/
def Collection.roGet (c : Collection) (etcd : EtcdReader) (key : String) :
    Except CollErr Record :=
  match etcd (c.path key) with
  | Except.error e => Except.error e
  | Except.ok none => Except.error (CollErr.notFound c.pfx key)
  | Except.ok (some raw) =>
    match Record.deserialize raw with
    | some r => Except.ok r
    | none => Except.error (CollErr.unmarshalText raw)

/-- Go `indirectIterator`: a cursor over the key-value pairs of an index
directory range response. -/
structure IndirectIterator where
  index : Nat
  resp : List (String × String)
  deriving DecidableEq

/-- Result of one `Next` step: `(ok, err)` in Go becomes `done` (`ok =
false`, no error), `item` (`ok = true`), or `fail` (`ok = false` with the
error, terminating the sequence). -/
inductive NextRes
  | done
  | item (key : String) (r : Record)
  | fail (e : CollErr)
  deriving DecidableEq

/-- Go `indirectIterator.Next`: take the next index entry, recover the
primary key as `path.Base` of the entry's key, and dereference it through
a fresh point `Get`; a failing `Get` fails the step. -/
def indirectNext (c : Collection) (etcd : EtcdReader) (it : IndirectIterator) :
    IndirectIterator × NextRes :=
  match it.resp[it.index]? with
  | some kv =>
    let it2 : IndirectIterator := ⟨it.index + 1, it.resp⟩
    let key := pathBase kv.1
    match c.roGet etcd key with
    | Except.error e => (it2, NextRes.fail e)
    | Except.ok r => (it2, NextRes.item key r)
  | none => (it, NextRes.done)

/-- Go `readonlyCollection.GetByIndex`: wrap the index directory's range
response (already sorted by the store) in an indirect iterator starting at
position zero. -/
def getByIndex (resp : List (String × String)) : IndirectIterator :=
  ⟨0, resp⟩

/-! ### The watch translator (`readonlyCollection.WatchByIndex`) -/

/-- Modelled from the spec: a watch event of the `watch` package (not
among the sources): tagged put/delete/error, carrying a key and, for put,
a value (spec section 6). -/
inductive WEvent
  | put (key val : String)
  | del (key : String)
  | err (e : CollErr)
  deriving DecidableEq

/-- The forwarding loop of `WatchByIndex`, as a translation from the
stream of indirect (index-level) events to the stream of direct
(item-level) events it emits before terminating: an error event is
forwarded terminally; a put event is dereferenced through a fresh point
read (store failure is terminal, an absent key is skipped silently, a
present one is emitted with its fetched value); a delete event is
forwarded with the primary key only; upstream close ends the output. -/
def watchTranslate (c : Collection) (etcd : EtcdReader) : List WEvent → List WEvent
  | [] => []
  | WEvent.err e :: _ => [WEvent.err e]
  | WEvent.put k _ :: rest =>
    match etcd (c.path (pathBase k)) with
    | Except.error e => [WEvent.err e]
    | Except.ok none => watchTranslate c etcd rest
    | Except.ok (some v) => WEvent.put (pathBase k) v :: watchTranslate c etcd rest
  | WEvent.del k :: rest => WEvent.del (pathBase k) :: watchTranslate c etcd rest


/-! ## Spec-side definitions and witness fixtures -/

deriving instance DecidableEq for Except

/-- The operations the spec prescribes for one index of a `Put`, read
against the pre-`Put` snapshot `st0`: delete the prior index path when a
prior record is readable and yields a different path; then write the
back-reference only when the new index path does not already resolve to a
value. -/
def Collection.putIndexOpsSpec (c : Collection) (st0 : Store) (key : String) (val : Record)
    (index : Index) : List Op :=
  let newPath := c.indexPathFromVal val index key
  (match c.getRecAt st0 key with
   | Except.ok old =>
     let oldPath := c.indexPathFromVal old index key
     if oldPath ≠ newPath then [Op.del oldPath] else []
   | Except.error _ => []) ++
  (if st0.get newPath = "" then [Op.put newPath key] else [])

/-! ## Claim C4: path derivation versus plain concatenation

`path.Join` cleans its input, so the claimed concatenation shapes hold
exactly when the concatenations are already clean paths.  The predicates
below carve out that domain: a `SimpleSeg` is one path element (non-empty,
separator-free, neither `.` nor `..`), and `CleanSegs` is a non-empty
`/`-separated sequence of such elements. -/

/-- One clean path element. -/
def SimpleSeg (l : List Char) : Prop :=
  l ≠ [] ∧ '/' ∉ l ∧ l ≠ ['.'] ∧ l ≠ ['.', '.']

instance (l : List Char) : Decidable (SimpleSeg l) :=
  inferInstanceAs (Decidable (_ ∧ _ ∧ _ ∧ _))

/-- A non-empty `/`-separated sequence of clean path elements. -/
inductive CleanSegs : List Char → Prop
  | single (s : List Char) : SimpleSeg s → CleanSegs s
  | cons (s rest : List Char) : SimpleSeg s → CleanSegs rest → CleanSegs (s ++ '/' :: rest)

/-- A prefix in the shape `NewCollection` produces on reasonable input:
empty, or a (possibly rooted) clean segment sequence terminated by `/`. -/
def GoodPfx (p : String) : Prop :=
  p = "" ∨ ∃ l, CleanSegs l ∧ (p.data = l ++ ['/'] ∨ p.data = '/' :: (l ++ ['/']))

/-- Concrete collection used by witnesses: prefix `jobs`, two indexes. -/
def cW : Collection := NewCollection "jobs" ["F", "G"]

/-- Concrete transaction over a store holding a prior record at `jobs/k1`. -/
def sW : STM := ⟨[("jobs/k1", "F:old;G:same")], []⟩

/-- Concrete new record whose `F` field changed and `G` field did not. -/
def valW : Record := ⟨[("F", "new"), ("G", "same")]⟩

/-- Concrete integer-view collection for C2. -/
def cIntW : Collection := NewCollection "counters" []

/-- A transaction whose store holds non-integer text under `counters/k`. -/
def sIntW : STM := ⟨[("counters/k", "abc")], []⟩

/-- Concrete one-index collection for C3. -/
def cBadW : Collection := NewCollection "jobs" ["F"]

/-- A transaction whose store holds undeserializable text at `jobs/k`. -/
def sBadW : STM := ⟨[("jobs/k", "garbage")], []⟩

/-- Concrete etcd reader for the C7 witness: every path reads as "no
entry" (the record behind the index entry has been deleted). -/
def etcdGoneW : EtcdReader := fun _ => Except.ok none

/-- Concrete indirect iterator over one index entry pointing at `k1`. -/
def itW : IndirectIterator := ⟨0, [("jobs__index_F/v/k1", "k1")]⟩

/-- Concrete etcd reader for the C8 witness: the dereferencing read fails
with a transport error. -/
def etcdFailW : EtcdReader := fun _ => Except.error (CollErr.storeErr "boom")

/-! ## Concrete evaluations of the embedding -/

example : atoi "-42" = some (-42) := by decide
example : atoi "abc" = none := by decide
example : atoi "" = none := by decide
example : atoi "+7" = some 7 := by decide
example : itoa (-5) = "-5" := by rfl
example : Record.serialize ⟨[]⟩ = "" := by rfl
example : Record.serialize ⟨[("F", "a"), ("G", "b")]⟩ = "F:a;G:b" := by rfl
example : Record.deserialize "F:a;G:b" = some ⟨[("F", "a"), ("G", "b")]⟩ := by decide
example : Record.deserialize "garbage" = none := by decide

example : clean "jobs//j1" = "jobs/j1" := by decide
example : clean "jobs//" = "jobs" := by decide
example : clean "/a/b/.." = "/a" := by decide
example : clean "a/b/../../.." = ".." := by decide
example : clean "" = "." := by decide
example : clean "/.." = "/" := by decide
example : clean "./a" = "a" := by decide
example : clean "a/../b" = "b" := by decide
example : pathJoin "jobs/" "j1" = "jobs/j1" := by decide
example : pathJoin "jobs/" "" = "jobs" := by decide
example : pathJoin "" "j1" = "j1" := by decide
example : pathJoin "" "" = "" := by decide
example : pathBase "a/b/c" = "c" := by decide
example : pathBase "/a/" = "a" := by decide
example : pathBase "///" = "/" := by decide
example : pathBase "" = "." := by decide
example : rstripSlash "jobs//" = "jobs" := by decide
example : rstripSlash "" = "" := by decide

example : (NewCollection "jobs" ["State"]).pfx = "jobs/" := by decide
example : (NewCollection "jobs" []).path "j1" = "jobs/j1" := by decide
example : (NewCollection "jobs" []).indexPath "State" "running" "j1"
    = "jobs__index_State/running/j1" := by decide

example : rstripSlash "" = "" := by rfl


/-! ## Basic lemmas about the transactional context -/

theorem Store.put_get_eq (st : Store) (k v : String) : (st.put k v).get k = v := by
  simp [Store.put, Store.get]

theorem Store.put_get_ne (st : Store) (k v k' : String) (h : k' ≠ k) :
    (st.put k v).get k' = st.get k' := by
  simp [Store.put, Store.get, h]

theorem Store.del_get_eq (st : Store) (k : String) : (st.del k).get k = "" := by
  simp [Store.del, Store.get]

theorem Store.del_get_ne (st : Store) (k k' : String) (h : k' ≠ k) :
    (st.del k).get k' = st.get k' := by
  simp [Store.del, Store.get, h]

theorem STM.eval_put (s : STM) (k v : String) : (s.put k v).eval = (s.eval).put k v := by
  simp [STM.put, STM.eval, List.foldl_append, applyOp]

theorem STM.eval_del (s : STM) (k : String) : (s.del k).eval = (s.eval).del k := by
  simp [STM.del, STM.eval, List.foldl_append, applyOp]

theorem STM.get_put_eq (s : STM) (k v : String) : (s.put k v).get k = v := by
  simp [STM.get, STM.eval_put, Store.put_get_eq]

theorem STM.get_put_ne (s : STM) (k v k' : String) (h : k' ≠ k) :
    (s.put k v).get k' = s.get k' := by
  simp [STM.get, STM.eval_put, Store.put_get_ne _ _ _ _ h]

theorem STM.get_del_eq (s : STM) (k : String) : (s.del k).get k = "" := by
  simp [STM.get, STM.eval_del, Store.del_get_eq]

theorem STM.get_del_ne (s : STM) (k k' : String) (h : k' ≠ k) :
    (s.del k).get k' = s.get k' := by
  simp [STM.get, STM.eval_del, Store.del_get_ne _ _ _ h]

theorem STM.base_put (s : STM) (k v : String) : (s.put k v).base = s.base := rfl

theorem STM.base_del (s : STM) (k : String) : (s.del k).base = s.base := rfl

theorem STM.log_put (s : STM) (k v : String) : (s.put k v).log = s.log ++ [Op.put k v] := rfl

theorem STM.log_del (s : STM) (k : String) : (s.log ++ [Op.del k]) = (s.del k).log := rfl

theorem Collection.getRecAt_congr (c : Collection) (key : String) {st1 st2 : Store}
    (h : st1.get (c.path key) = st2.get (c.path key)) :
    c.getRecAt st1 key = c.getRecAt st2 key := by
  unfold Collection.getRecAt
  rw [h]

/-! ## Claim C1: `Put`'s index maintenance, declaratively -/

/-- Unfolding of one index-maintenance iteration against a transaction
whose relevant reads agree with the snapshot `st0`. -/
theorem Collection.putIndexStep_spec (c : Collection) (key : String) (val : Record)
    (st0 : Store) (t : STM) (i : Index)
    (hA : t.get (c.path key) = st0.get (c.path key))
    (hB : t.get (c.indexPathFromVal val i key) = st0.get (c.indexPathFromVal val i key)) :
    (c.putIndexStep key val t i).base = t.base ∧
    (c.putIndexStep key val t i).log = t.log ++ c.putIndexOpsSpec st0 key val i := by
  have hread : c.rwGet t key = c.getRecAt st0 key := by
    unfold Collection.rwGet
    exact c.getRecAt_congr key hA
  unfold Collection.putIndexStep Collection.putIndexOpsSpec
  rw [hread]
  cases hok : c.getRecAt st0 key with
  | error e =>
    simp only []
    by_cases hempty : st0.get (c.indexPathFromVal val i key) = ""
    · rw [hB, if_pos hempty, if_pos hempty]
      exact ⟨rfl, by simp [STM.log_put]⟩
    · rw [hB, if_neg hempty, if_neg hempty]
      exact ⟨rfl, by simp⟩
  | ok old =>
    simp only []
    by_cases hne : c.indexPathFromVal old i key ≠ c.indexPathFromVal val i key
    · rw [if_pos hne, if_pos hne]
      have hBdel : (t.del (c.indexPathFromVal old i key)).get (c.indexPathFromVal val i key)
          = st0.get (c.indexPathFromVal val i key) := by
        rw [STM.get_del_ne _ _ _ (fun h => hne h.symm), hB]
      by_cases hempty : st0.get (c.indexPathFromVal val i key) = ""
      · rw [hBdel, if_pos hempty]
        exact ⟨rfl, by simp [STM.log_put, STM.del, hempty]⟩
      · rw [hBdel, if_neg hempty]
        exact ⟨rfl, by simp [STM.del, hempty]⟩
    · rw [if_neg hne, if_neg hne]
      by_cases hempty : st0.get (c.indexPathFromVal val i key) = ""
      · rw [hB, if_pos hempty, if_pos hempty]
        exact ⟨rfl, by simp [STM.log_put]⟩
      · rw [hB, if_neg hempty, if_neg hempty]
        exact ⟨rfl, by simp⟩

/-- One index-maintenance iteration leaves every path other than the
index paths it touches unchanged. -/
theorem Collection.putIndexStep_get_preserved (c : Collection) (key : String) (val : Record)
    (t : STM) (i : Index) (p : String)
    (hp1 : p ≠ c.indexPathFromVal val i key)
    (hp2 : ∀ r, c.rwGet t key = Except.ok r → p ≠ c.indexPathFromVal r i key) :
    (c.putIndexStep key val t i).get p = t.get p := by
  unfold Collection.putIndexStep
  cases hok : c.rwGet t key with
  | error e =>
    simp only []
    by_cases hempty : STM.get t (c.indexPathFromVal val i key) = ""
    · rw [if_pos hempty, STM.get_put_ne _ _ _ _ hp1]
    · rw [if_neg hempty]
  | ok old =>
    simp only []
    by_cases hne : c.indexPathFromVal old i key ≠ c.indexPathFromVal val i key
    · rw [if_pos hne]
      have hdel := STM.get_del_ne t (c.indexPathFromVal old i key) p (hp2 old hok)
      by_cases hempty :
          (t.del (c.indexPathFromVal old i key)).get (c.indexPathFromVal val i key) = ""
      · rw [if_pos hempty, STM.get_put_ne _ _ _ _ hp1, hdel]
      · rw [if_neg hempty, hdel]
    · rw [if_neg hne]
      by_cases hempty : STM.get t (c.indexPathFromVal val i key) = ""
      · rw [if_pos hempty, STM.get_put_ne _ _ _ _ hp1]
      · rw [if_neg hempty]

/-- The full index-maintenance fold produces, in declaration order, the
per-index operations of the spec, provided the index paths do not collide
with the primary path or with each other. -/
theorem Collection.foldl_putIndexStep_spec (c : Collection) (key : String) (val : Record)
    (st0 : Store) (idxs : List Index) (t : STM)
    (hA : t.get (c.path key) = st0.get (c.path key))
    (hB : ∀ i ∈ idxs,
        t.get (c.indexPathFromVal val i key) = st0.get (c.indexPathFromVal val i key))
    (hprim : ∀ i ∈ idxs, c.indexPathFromVal val i key ≠ c.path key)
    (hprimOld : ∀ i ∈ idxs, ∀ r, c.getRecAt st0 key = Except.ok r →
        c.indexPathFromVal r i key ≠ c.path key)
    (hpair : List.Pairwise (fun i j =>
        c.indexPathFromVal val j key ≠ c.indexPathFromVal val i key ∧
        ∀ r, c.getRecAt st0 key = Except.ok r →
          c.indexPathFromVal val j key ≠ c.indexPathFromVal r i key) idxs) :
    (idxs.foldl (c.putIndexStep key val) t).base = t.base ∧
    (idxs.foldl (c.putIndexStep key val) t).log
      = t.log ++ (idxs.map (c.putIndexOpsSpec st0 key val)).join := by
  induction idxs generalizing t with
  | nil => simp
  | cons i idxs ih =>
    obtain ⟨hpair_i, hpair_rest⟩ := List.pairwise_cons.mp hpair
    have hread : c.rwGet t key = c.getRecAt st0 key := c.getRecAt_congr key hA
    have step := c.putIndexStep_spec key val st0 t i hA (hB i (by simp))
    have hpres : ∀ p, p ≠ c.indexPathFromVal val i key →
        (∀ r, c.getRecAt st0 key = Except.ok r → p ≠ c.indexPathFromVal r i key) →
        (c.putIndexStep key val t i).get p = t.get p := by
      intro p h1 h2
      exact c.putIndexStep_get_preserved key val t i p h1
        (fun r hr => h2 r (by rw [hread] at hr; exact hr))
    have hA' : (c.putIndexStep key val t i).get (c.path key) = st0.get (c.path key) := by
      rw [hpres (c.path key) (fun h => hprim i (by simp) h.symm)
          (fun r hr h => hprimOld i (by simp) r hr h.symm)]
      exact hA
    have hB' : ∀ j ∈ idxs, (c.putIndexStep key val t i).get (c.indexPathFromVal val j key)
        = st0.get (c.indexPathFromVal val j key) := by
      intro j hj
      rw [hpres _ (hpair_i j hj).1 (fun r hr => (hpair_i j hj).2 r hr)]
      exact hB j (by simp [hj])
    have main := ih (c.putIndexStep key val t i) hA' hB'
      (fun j hj => hprim j (by simp [hj]))
      (fun j hj => hprimOld j (by simp [hj]))
      hpair_rest
    refine ⟨?_, ?_⟩
    · rw [List.foldl_cons, main.1, step.1]
    · rw [List.foldl_cons, main.2, step.2]
      simp [List.append_assoc]

/-- C1: `Put(key, record)` processes the declared indexes in declaration
order; for each index it deletes the prior index path when a prior record
is readable at `key` and yields a different index path, writes the
back-reference to the new index path only when that path does not already
resolve to a value, and only after all indexes are processed writes the
serialized record to the primary path.  (The hypotheses rule out string
collisions between the primary path and the index paths.) -/
theorem put_index_maintenance (c : Collection) (s : STM) (key : String) (val : Record)
    (hprim : ∀ i ∈ c.indexes, c.indexPathFromVal val i key ≠ c.path key)
    (hprimOld : ∀ i ∈ c.indexes, ∀ r, c.rwGet s key = Except.ok r →
        c.indexPathFromVal r i key ≠ c.path key)
    (hpair : List.Pairwise (fun i j =>
        c.indexPathFromVal val j key ≠ c.indexPathFromVal val i key ∧
        ∀ r, c.rwGet s key = Except.ok r →
          c.indexPathFromVal val j key ≠ c.indexPathFromVal r i key) c.indexes) :
    (c.rwPut s key val).base = s.base ∧
    (c.rwPut s key val).log
      = s.log ++ (c.indexes.map (c.putIndexOpsSpec s.eval key val)).join
          ++ [Op.put (c.path key) val.serialize] := by
  have hfold := c.foldl_putIndexStep_spec key val s.eval c.indexes s rfl
    (fun _ _ => rfl) hprim hprimOld hpair
  unfold Collection.rwPut
  by_cases hemp : c.indexes.isEmpty
  · have hnil : c.indexes = [] := by
      cases h : c.indexes with
      | nil => rfl
      | cons a l => rw [h] at hemp; simp [List.isEmpty] at hemp
    rw [if_pos hemp]
    simp [hnil, STM.put]
  · rw [if_neg hemp]
    refine ⟨?_, ?_⟩
    · rw [STM.base_put, hfold.1]
    · rw [STM.log_put, hfold.2, List.append_assoc]

/-- Witness for C1 at a concrete two-index collection where the first
indexed field changed and the second did not. -/
theorem put_index_maintenance_witness :
    (cW.rwPut sW "k1" valW).base = sW.base ∧
    (cW.rwPut sW "k1" valW).log
      = sW.log ++ (cW.indexes.map (cW.putIndexOpsSpec sW.eval "k1" valW)).join
          ++ [Op.put (cW.path "k1") valW.serialize] :=
  put_index_maintenance cW sW "k1" valW
    (by decide)
    (by
      intro i hi r hr
      have he : cW.rwGet sW "k1" = Except.ok (⟨[("F", "old"), ("G", "same")]⟩ : Record) := by
        rfl
      have h := Except.ok.inj (he.symm.trans hr)
      subst h
      revert i hi
      decide)
    (by
      have he : cW.rwGet sW "k1" = Except.ok (⟨[("F", "old"), ("G", "same")]⟩ : Record) := by
        rfl
      refine List.Pairwise.cons ?_ (List.Pairwise.cons ?_ List.Pairwise.nil)
      · intro j hj
        refine ⟨?_, ?_⟩
        · revert j hj; decide
        · intro r hr
          have h := Except.ok.inj (he.symm.trans hr)
          subst h
          revert j hj
          decide
      · intro j hj
        cases hj)

/-- C6: `Create(key, record)` fails with `AlreadyExists{collection, key}`
and leaves the transaction (stored value and index entries) untouched when
the primary path already holds a value; when the primary path is absent it
behaves exactly as `Put`. -/
theorem create_exists_or_put (c : Collection) (s : STM) (key : String) (r : Record) :
    (s.get (c.path key) ≠ "" →
      c.rwCreate s key r = (some (CollErr.alreadyExists c.pfx key), s)) ∧
    (s.get (c.path key) = "" →
      c.rwCreate s key r = (none, c.rwPut s key r)) := by
  unfold Collection.rwCreate
  constructor
  · intro h
    simp [h]
  · intro h
    simp [h]

/-- Witness for C6: both branches at a concrete transaction. -/
theorem create_exists_or_put_witness :
    (STM.get sW (cW.path "k1") ≠ "" ∧
      cW.rwCreate sW "k1" valW = (some (CollErr.alreadyExists cW.pfx "k1"), sW)) ∧
    (STM.get sW (cW.path "fresh") = "" ∧
      cW.rwCreate sW "fresh" valW = (none, cW.rwPut sW "fresh" valW)) :=
  ⟨⟨by decide, (create_exists_or_put cW sW "k1" valW).1 (by decide)⟩,
   ⟨by decide, (create_exists_or_put cW sW "fresh" valW).2 (by decide)⟩⟩

/-- C9: the empty string encodes absence at the transactional interface:
with empty text at the primary path, `Get` is `NotFound`, `Create`
succeeds, and `Delete` is `NotFound`; moreover a record with empty
serialization (the empty record) written by `Put` leaves the primary path
reading as empty text. -/
theorem empty_string_is_absence (c : Collection) (s : STM) (key : String)
    (h : s.get (c.path key) = "") :
    c.rwGet s key = Except.error (CollErr.notFound c.pfx key) ∧
    (∀ r : Record, (c.rwCreate s key r).1 = none) ∧
    (∀ vals, c.rwDelete s key vals = (some (CollErr.notFound c.pfx key), s)) ∧
    Record.serialize ⟨[]⟩ = "" ∧
    (∀ (c' : Collection) (s' : STM) (k' : String), c'.indexes = [] →
      STM.get (c'.rwPut s' k' ⟨[]⟩) (c'.path k') = "") := by
  refine ⟨?_, ?_, ?_, rfl, ?_⟩
  · unfold Collection.rwGet Collection.getRecAt
    rw [show Store.get s.eval (c.path key) = "" from h]
    simp
  · intro r
    unfold Collection.rwCreate
    simp [h]
  · intro vals
    unfold Collection.rwDelete
    simp [h]
  · intro c' s' k' h'
    unfold Collection.rwPut
    have hser : (⟨[]⟩ : Record).serialize = "" := rfl
    simp [h', hser, STM.get_put_eq]

/-- Witness for C9 at a key with no binding at all. -/
theorem empty_string_is_absence_witness :
    STM.get sW (cW.path "fresh") = "" ∧
    (cW.rwGet sW "fresh" = Except.error (CollErr.notFound cW.pfx "fresh") ∧
      (∀ r : Record, (cW.rwCreate sW "fresh" r).1 = none) ∧
      (∀ vals, cW.rwDelete sW "fresh" vals = (some (CollErr.notFound cW.pfx "fresh"), sW)) ∧
      Record.serialize ⟨[]⟩ = "" ∧
      (∀ (c' : Collection) (s' : STM) (k' : String), c'.indexes = [] →
        STM.get (c'.rwPut s' k' ⟨[]⟩) (c'.path k') = "")) :=
  ⟨by decide, empty_string_is_absence cW sW "fresh" (by decide)⟩

/-- C10: `Delete(key)` with no supplied record value (or on a collection
with no index list) queues exactly one deletion — of the primary path —
and every other path, index entries included, reads unchanged. -/
theorem delete_frame (c : Collection) (s : STM) (key : String) (vals : List Record)
    (hpresent : s.get (c.path key) ≠ "")
    (hnoval : vals = [] ∨ c.indexes = []) :
    c.rwDelete s key vals = (none, s.del (c.path key)) ∧
    (∀ p, p ≠ c.path key → (s.del (c.path key)).get p = s.get p) ∧
    (s.del (c.path key)).get (c.path key) = "" := by
  refine ⟨?_, fun p hp => STM.get_del_ne s _ p hp, STM.get_del_eq s _⟩
  unfold Collection.rwDelete
  rw [if_neg hpresent]
  rcases hnoval with h | h
  · subst h
    cases c.indexes <;> rfl
  · rw [h]
    cases vals <;> rfl

/-- Witness for C10: delete without a record buffer on an indexed
collection with a present key. -/
theorem delete_frame_witness :
    STM.get sW (cW.path "k1") ≠ "" ∧
    (cW.rwDelete sW "k1" [] = (none, sW.del (cW.path "k1")) ∧
      (∀ p, p ≠ cW.path "k1" → (sW.del (cW.path "k1")).get p = STM.get sW p) ∧
      (sW.del (cW.path "k1")).get (cW.path "k1") = "") :=
  ⟨by decide, delete_frame cW sW "k1" [] (by decide) (Or.inl rfl)⟩

/-- C2 counterexample: with non-empty, non-integer stored text the
integer view's `Get` does NOT fail with `MalformedValue{collection, key,
raw}` — it returns `strconv.Atoi`'s own parse error unwrapped. -/
theorem intGet_not_malformed_cex :
    STM.get sIntW (cIntW.path "k") = "abc" ∧
    atoi "abc" = none ∧
    cIntW.intGet sIntW "k" = Except.error (CollErr.parseInt "abc") ∧
    cIntW.intGet sIntW "k" ≠ Except.error (CollErr.malformedValue cIntW.pfx "k" "abc") := by
  refine ⟨by decide, by decide, by decide, by decide⟩

/-- C2 (amended): on absent text the integer view's `Get` fails with
`NotFound{collection, key}`; on non-empty text that is not a valid
base-10 integer it fails with the integer-parse error carrying the raw
text (`strconv.Atoi`'s error, not `MalformedValue`). -/
theorem intGet_error_cases (c : Collection) (s : STM) (key : String) :
    (s.get (c.path key) = "" →
      c.intGet s key = Except.error (CollErr.notFound c.pfx key)) ∧
    (s.get (c.path key) ≠ "" → atoi (s.get (c.path key)) = none →
      c.intGet s key = Except.error (CollErr.parseInt (s.get (c.path key)))) := by
  unfold Collection.intGet
  constructor
  · intro h
    simp [h]
  · intro h1 h2
    simp [h1, h2]

/-- Witness for C2 (amended): both error branches at concrete stores. -/
theorem intGet_error_cases_witness :
    (STM.get sIntW (cIntW.path "missing") = "" ∧
      cIntW.intGet sIntW "missing" = Except.error (CollErr.notFound cIntW.pfx "missing")) ∧
    (STM.get sIntW (cIntW.path "k") ≠ "" ∧ atoi (STM.get sIntW (cIntW.path "k")) = none ∧
      cIntW.intGet sIntW "k" = Except.error (CollErr.parseInt (STM.get sIntW (cIntW.path "k")))) :=
  ⟨⟨by decide, (intGet_error_cases cIntW sIntW "missing").1 (by decide)⟩,
   ⟨by decide, by decide, (intGet_error_cases cIntW sIntW "k").2 (by decide) (by decide)⟩⟩

/-- C3 counterexample: the read that locates the prior index entry fails
with a deserialization error — NOT "key not found" — and yet `Put`
swallows it: no failure propagates (Put returns no error at all) and the
write sequence completes normally. -/
theorem put_swallows_read_failure_cex :
    cBadW.rwGet sBadW "k" = Except.error (CollErr.unmarshalText "garbage") ∧
    (cBadW.rwPut sBadW "k" valW).log
      = [Op.put "jobs__index_F/new/k" "k", Op.put "jobs/k" "F:new;G:same"] := by
  refine ⟨by decide, by decide⟩

/-- The index-maintenance fold when the prior-record read fails: no
delete is issued and only conditional back-reference puts are queued. -/
theorem foldl_putIndexStep_err (c : Collection) (s : STM) (key : String) (val : Record)
    (e : CollErr) (herr : c.rwGet s key = Except.error e)
    (idxs : List Index) (t : STM)
    (ht : t.get (c.path key) = s.get (c.path key))
    (hdist : ∀ i ∈ idxs, c.indexPathFromVal val i key ≠ c.path key) :
    ∃ L, (idxs.foldl (c.putIndexStep key val) t).log = t.log ++ L ∧
      (idxs.foldl (c.putIndexStep key val) t).get (c.path key) = s.get (c.path key) ∧
      ∀ op ∈ L, ∃ i ∈ idxs, op = Op.put (c.indexPathFromVal val i key) key := by
  induction idxs generalizing t with
  | nil => exact ⟨[], by simp, by simpa using ht, by simp⟩
  | cons i idxs ih =>
    have hread : c.rwGet t key = Except.error e := by
      unfold Collection.rwGet
      rw [c.getRecAt_congr key ht]
      exact herr
    have hstep : c.putIndexStep key val t i = t ∨
        c.putIndexStep key val t i = t.put (c.indexPathFromVal val i key) key := by
      unfold Collection.putIndexStep
      rw [hread]
      by_cases hempty : STM.get t (c.indexPathFromVal val i key) = ""
      · right; rw [if_pos hempty]
      · left; rw [if_neg hempty]
    have ht' : (c.putIndexStep key val t i).get (c.path key) = s.get (c.path key) := by
      rcases hstep with hcase | hcase <;> rw [hcase]
      · exact ht
      · rw [STM.get_put_ne _ _ _ _ (fun hh => hdist i (by simp) hh.symm)]
        exact ht
    obtain ⟨L, hL1, hL2, hL3⟩ := ih (c.putIndexStep key val t i) ht'
      (fun j hj => hdist j (by simp [hj]))
    rcases hstep with hcase | hcase
    · refine ⟨L, ?_, ?_, ?_⟩
      · rw [List.foldl_cons, hL1, hcase]
      · rw [List.foldl_cons]
        exact hL2
      · intro op hop
        obtain ⟨j, hj, hj2⟩ := hL3 op hop
        exact ⟨j, by simp [hj], hj2⟩
    · refine ⟨Op.put (c.indexPathFromVal val i key) key :: L, ?_, ?_, ?_⟩
      · rw [List.foldl_cons, hL1, hcase, STM.log_put]
        simp
      · rw [List.foldl_cons]
        exact hL2
      · intro op hop
        rcases List.mem_cons.mp hop with hop | hop
        · exact ⟨i, by simp, hop⟩
        · obtain ⟨j, hj, hj2⟩ := hL3 op hop
          exact ⟨j, by simp [hj], hj2⟩

/-- C3 (amended): in `Put`'s index-maintenance loop EVERY failure of the
read that locates the prior index entry — "key not found" and any other
failure (e.g. a deserialization failure of the stored prior record) alike
— is treated as "no prior index entry": no prior-index delete is issued
and nothing propagates to the caller (Put has no error result; it still
queues its conditional back-reference writes followed by the primary
write). -/
theorem put_read_failure_swallowed (c : Collection) (s : STM) (key : String) (val : Record)
    (e : CollErr) (herr : c.rwGet s key = Except.error e)
    (hdist : ∀ i ∈ c.indexes, c.indexPathFromVal val i key ≠ c.path key) :
    ∃ L, (c.rwPut s key val).log = s.log ++ L ++ [Op.put (c.path key) val.serialize] ∧
      ∀ op ∈ L, ∃ i ∈ c.indexes, op = Op.put (c.indexPathFromVal val i key) key := by
  unfold Collection.rwPut
  by_cases hemp : c.indexes.isEmpty
  · rw [if_pos hemp]
    exact ⟨[], by simp [STM.log_put], by simp⟩
  · rw [if_neg hemp]
    obtain ⟨L, hL1, _, hL3⟩ := foldl_putIndexStep_err c s key val e herr c.indexes s rfl hdist
    exact ⟨L, by rw [STM.log_put, hL1], hL3⟩

/-- Witness for C3 (amended) at the concrete undeserializable store. -/
theorem put_read_failure_swallowed_witness :
    cBadW.rwGet sBadW "k" = Except.error (CollErr.unmarshalText "garbage") ∧
    (∀ i ∈ cBadW.indexes, cBadW.indexPathFromVal valW i "k" ≠ cBadW.path "k") ∧
    ∃ L, (cBadW.rwPut sBadW "k" valW).log
        = sBadW.log ++ L ++ [Op.put (cBadW.path "k") valW.serialize] ∧
      ∀ op ∈ L, ∃ i ∈ cBadW.indexes, op = Op.put (cBadW.indexPathFromVal valW i "k") "k" :=
  ⟨by decide, by decide,
    put_read_failure_swallowed cBadW sBadW "k" valW (CollErr.unmarshalText "garbage")
      (by decide) (by decide)⟩

/-- C7: a step of the sequence returned by `GetByIndex` dereferences the
index entry's back-referenced primary key through a fresh point `Get`; a
successful `Get` yields the item, a failing `Get` — in particular
`NotFound` when the referenced primary record is absent — fails the step
(terminating the sequence) instead of skipping the entry. -/
theorem indirect_next_resolves (c : Collection) (etcd : EtcdReader) (it : IndirectIterator)
    (kv : String × String) (h : it.resp[it.index]? = some kv) :
    (∀ r, c.roGet etcd (pathBase kv.1) = Except.ok r →
        indirectNext c etcd it = (⟨it.index + 1, it.resp⟩, NextRes.item (pathBase kv.1) r)) ∧
    (∀ e, c.roGet etcd (pathBase kv.1) = Except.error e →
        indirectNext c etcd it = (⟨it.index + 1, it.resp⟩, NextRes.fail e)) ∧
    (etcd (c.path (pathBase kv.1)) = Except.ok none →
        indirectNext c etcd it
          = (⟨it.index + 1, it.resp⟩, NextRes.fail (CollErr.notFound c.pfx (pathBase kv.1)))) := by
  refine ⟨?_, ?_, ?_⟩
  · intro r hr
    unfold indirectNext
    rw [h]
    simp only [hr]
  · intro e he
    unfold indirectNext
    rw [h]
    simp only [he]
  · intro habs
    have he : c.roGet etcd (pathBase kv.1)
        = Except.error (CollErr.notFound c.pfx (pathBase kv.1)) := by
      unfold Collection.roGet
      rw [habs]
    unfold indirectNext
    rw [h]
    simp only [he]

/-- Witness for C7: the referenced primary record is absent, so the step
fails with `NotFound` for the back-referenced key. -/
theorem indirect_next_resolves_witness :
    itW.resp[itW.index]? = some ("jobs__index_F/v/k1", "k1") ∧
    etcdGoneW (cW.path (pathBase "jobs__index_F/v/k1")) = Except.ok none ∧
    indirectNext cW etcdGoneW itW
      = (⟨1, itW.resp⟩, NextRes.fail (CollErr.notFound cW.pfx "k1")) :=
  ⟨by decide, by decide,
    (indirect_next_resolves cW etcdGoneW itW ("jobs__index_F/v/k1", "k1") (by decide)).2.2
      (by decide)⟩

/-- C8: the `WatchByIndex` translator, per indirect event: a failing
dereference read is terminal (one error event, then the stream stops); a
read that finds the key absent is skipped silently and translation
continues; a found key yields a direct put event with the primary key and
the fetched value; an indirect delete event becomes a direct delete event
carrying only the primary key; an upstream error event is forwarded
terminally. -/
theorem watch_translate_cases (c : Collection) (etcd : EtcdReader) (k v : String)
    (rest : List WEvent) :
    (∀ e, etcd (c.path (pathBase k)) = Except.error e →
        watchTranslate c etcd (WEvent.put k v :: rest) = [WEvent.err e]) ∧
    (etcd (c.path (pathBase k)) = Except.ok none →
        watchTranslate c etcd (WEvent.put k v :: rest) = watchTranslate c etcd rest) ∧
    (∀ w, etcd (c.path (pathBase k)) = Except.ok (some w) →
        watchTranslate c etcd (WEvent.put k v :: rest)
          = WEvent.put (pathBase k) w :: watchTranslate c etcd rest) ∧
    (watchTranslate c etcd (WEvent.del k :: rest)
        = WEvent.del (pathBase k) :: watchTranslate c etcd rest) ∧
    (∀ e, watchTranslate c etcd (WEvent.err e :: rest) = [WEvent.err e]) := by
  refine ⟨?_, ?_, ?_, rfl, fun e => rfl⟩
  · intro e he
    simp only [watchTranslate, he]
  · intro he
    simp only [watchTranslate, he]
  · intro w hw
    simp only [watchTranslate, hw]

/-- Witness for C8: a failing dereference read is terminal, and a delete
event is forwarded with the primary key only. -/
theorem watch_translate_cases_witness :
    etcdFailW (cW.path (pathBase "jobs__index_F/v/k1")) = Except.error (CollErr.storeErr "boom") ∧
    watchTranslate cW etcdFailW
        [WEvent.put "jobs__index_F/v/k1" "k1", WEvent.del "jobs__index_F/v/k1"]
      = [WEvent.err (CollErr.storeErr "boom")] ∧
    watchTranslate cW etcdFailW [WEvent.del "jobs__index_F/v/k1"]
      = [WEvent.del "k1"] :=
  ⟨by decide,
    (watch_translate_cases cW etcdFailW "jobs__index_F/v/k1" "k1"
        [WEvent.del "jobs__index_F/v/k1"]).1 (CollErr.storeErr "boom") (by decide),
    by
      have h := (watch_translate_cases cW etcdFailW "jobs__index_F/v/k1" "k1" []).2.2.2.1
      rw [show pathBase "jobs__index_F/v/k1" = "k1" from by decide] at h
      exact h⟩

/-- Two strings with equal character data are equal. -/
theorem str_eq_of_data_eq {a b : String} (h : a.data = b.data) : a = b := by
  cases a
  cases b
  simp only [] at h
  rw [h]

/-- A non-empty string has non-empty character data. -/
theorem data_ne_nil_of_ne_empty {p : String} (h : p ≠ "") : p.data ≠ [] := by
  intro hd
  apply h
  cases p
  subst hd
  rfl

/-- A separator-free non-empty prefix is normalized by appending `/`. -/
theorem newCollection_pfx_of_no_slash {p : String} (idx : List Index) (h : p ≠ "")
    (hs : '/' ∉ p.data) : (NewCollection p idx).pfx = p ++ "/" := by
  unfold NewCollection
  rw [if_pos ⟨data_ne_nil_of_ne_empty h,
    fun hl => hs (List.mem_of_getLast?_eq_some hl)⟩]

/-- C5 counterexample: the claim fails as stated — the empty prefix is
left unterminated by the constructor, and two distinct collections with
nested names have overlapping key spaces. -/
theorem collection_prefix_cex :
    (NewCollection "" []).pfx.data.getLast? ≠ some '/' ∧
    (("a" : String) ≠ "a/b") ∧
    (NewCollection "a" []).pfx.data <+: (NewCollection "a/b" []).pfx.data := by
  refine ⟨by decide, by decide, ⟨['b', '/'], by decide⟩⟩

/-- C5 (amended): for every NON-empty prefix the constructed collection's
prefix ends with the separator; and for two distinct non-empty
separator-FREE prefixes, neither constructed key space is a string prefix
of the other (so e.g. `foo` never lists keys under `foobar`). -/
theorem collection_prefix_norm (p1 p2 : String) (idx1 idx2 : List Index) (h1 : p1 ≠ "") :
    (NewCollection p1 idx1).pfx.data.getLast? = some '/' ∧
    (p2 ≠ "" → '/' ∉ p1.data → '/' ∉ p2.data → p1 ≠ p2 →
      ¬ (NewCollection p1 idx1).pfx.data <+: (NewCollection p2 idx2).pfx.data) := by
  constructor
  · by_cases hl : p1.data.getLast? = some '/'
    · unfold NewCollection
      rw [if_neg (fun hcond => hcond.2 hl)]
      exact hl
    · unfold NewCollection
      rw [if_pos ⟨data_ne_nil_of_ne_empty h1, hl⟩]
      show (p1 ++ "/").data.getLast? = some '/'
      rw [show (p1 ++ "/").data = p1.data ++ ['/'] by simp [String.data_append]]
      exact List.getLast?_concat _
  · intro h2 hs1 hs2 hne hpre
    rw [newCollection_pfx_of_no_slash idx1 h1 hs1,
      newCollection_pfx_of_no_slash idx2 h2 hs2] at hpre
    rw [show (p1 ++ "/").data = p1.data ++ ['/'] by simp [String.data_append],
      show (p2 ++ "/").data = p2.data ++ ['/'] by simp [String.data_append]] at hpre
    obtain ⟨t, ht⟩ := hpre
    cases t with
    | nil =>
      apply hne
      apply str_eq_of_data_eq
      have ht2 : p1.data ++ ['/'] = p2.data ++ ['/'] := by simpa using ht
      exact List.append_cancel_right ht2
    | cons c t =>
      have hlen := congrArg List.length ht
      simp only [List.length_append, List.length_cons] at hlen
      have hlt : p1.data.length < p2.data.length := by omega
      have hget := congrArg (fun l => l[p1.data.length]?) ht
      simp only [List.append_assoc] at hget
      rw [List.getElem?_append_right (le_refl _)] at hget
      rw [List.getElem?_append_left hlt] at hget
      simp only [Nat.sub_self, List.getElem?_cons_zero] at hget
      exact hs2 (List.getElem?_mem hget.symm)

/-- Witness for C5 (amended) at the sibling prefixes `foo` and `foobar`. -/
theorem collection_prefix_norm_witness :
    (("foo" : String) ≠ "" ∧ ("foobar" : String) ≠ "" ∧ '/' ∉ ("foo" : String).data ∧
      '/' ∉ ("foobar" : String).data ∧ ("foo" : String) ≠ "foobar") ∧
    (NewCollection "foo" []).pfx.data.getLast? = some '/' ∧
    ¬ (NewCollection "foo" []).pfx.data <+: (NewCollection "foobar" []).pfx.data :=
  ⟨⟨by decide, by decide, by decide, by decide, by decide⟩,
    (collection_prefix_norm "foo" "foobar" [] [] (by decide)).1,
    (collection_prefix_norm "foo" "foobar" [] [] (by decide)).2
      (by decide) (by decide) (by decide) (by decide)⟩

theorem CleanSegs.ne_nil {l : List Char} (h : CleanSegs l) : l ≠ [] := by
  cases h with
  | single s hs => exact hs.1
  | cons s rest hs _ => cases s with
    | nil => exact absurd rfl hs.1
    | cons a s => simp

theorem SimpleSeg.head_ne {s : List Char} (hs : SimpleSeg s) : s.head? ≠ some '/' := by
  cases s with
  | nil => exact absurd rfl hs.1
  | cons a t =>
    intro hh
    simp only [List.head?_cons, Option.some.injEq] at hh
    exact hs.2.1 (by simp [hh])

theorem CleanSegs.head_ne_slash {l : List Char} (h : CleanSegs l) : l.head? ≠ some '/' := by
  cases h with
  | single s hs => exact SimpleSeg.head_ne hs
  | cons s rest hs hrest =>
    cases s with
    | nil => exact absurd rfl hs.1
    | cons a t =>
      intro hh
      simp only [List.cons_append, List.head?_cons, Option.some.injEq] at hh
      exact hs.2.1 (by simp [hh])

theorem CleanSegs.getLast_ne_slash {l : List Char} (h : CleanSegs l) :
    l.getLast? ≠ some '/' := by
  induction h with
  | single s hs =>
    intro hh
    exact hs.2.1 (List.mem_of_getLast?_eq_some hh)
  | cons s rest hs hrec ih =>
    intro hh
    rw [List.getLast?_append_of_ne_nil _ (by simp)] at hh
    rw [show ('/' :: rest).getLast? = rest.getLast? by
      cases rest with
      | nil => exact absurd rfl hrec.ne_nil
      | cons b bs => simp [List.getLast?_cons_cons]] at hh
    exact ih hh

/-- Appending separator-free, not-all-dots text to a clean sequence keeps
it clean (the text merges into the last element). -/
theorem CleanSegs.append_chars {l : List Char} (h : CleanSegs l) (app : List Char)
    (hslash : '/' ∉ app) (hdot : ∃ a ∈ app, a ≠ '.') :
    CleanSegs (l ++ app) := by
  induction h with
  | single s hs =>
    refine CleanSegs.single _ ⟨by simp [hs.1], ?_, ?_, ?_⟩
    · intro hmem
      rcases List.mem_append.mp hmem with hm | hm
      · exact hs.2.1 hm
      · exact hslash hm
    · intro heq
      obtain ⟨a, ha, hadot⟩ := hdot
      have : a ∈ s ++ app := List.mem_append.mpr (Or.inr ha)
      rw [heq] at this
      simp at this
      exact hadot this
    · intro heq
      obtain ⟨a, ha, hadot⟩ := hdot
      have : a ∈ s ++ app := List.mem_append.mpr (Or.inr ha)
      rw [heq] at this
      simp at this
      exact hadot this
  | cons s rest hs hrec ih =>
    rw [List.append_assoc]
    exact CleanSegs.cons s (rest ++ app) hs (ih)

/-- Appending `/` and one more clean element to a clean sequence. -/
theorem CleanSegs.snoc_seg {l : List Char} (h : CleanSegs l) (s : List Char)
    (hs : SimpleSeg s) : CleanSegs (l ++ '/' :: s) := by
  induction h with
  | single s' hs' => exact CleanSegs.cons s' s hs' (CleanSegs.single s hs)
  | cons s' rest hs' hrec ih =>
    rw [List.append_assoc]
    exact CleanSegs.cons s' (rest ++ '/' :: s) hs' ih

/-! ### Fuel arithmetic for `cleanLoop` -/

/-- Fuel beyond the input length is irrelevant: one extra unit changes
nothing. -/
theorem cleanLoop_fuel_succ (rooted : Bool) :
    ∀ (fuel : Nat) (l out : List Char) (dotdot : Nat), l.length ≤ fuel →
      cleanLoop rooted fuel l out dotdot = cleanLoop rooted (fuel + 1) l out dotdot := by
  intro fuel
  induction fuel with
  | zero =>
    intro l out dotdot hl
    have : l = [] := List.length_eq_zero.mp (Nat.le_zero.mp hl)
    subst this
    rfl
  | succ fuel ih =>
    intro l out dotdot hl
    cases l with
    | nil => rfl
    | cons c cs =>
      simp only [List.length_cons] at hl
      show cleanLoop rooted (fuel + 1) (c :: cs) out dotdot
        = cleanLoop rooted (fuel + 1 + 1) (c :: cs) out dotdot
      simp only [cleanLoop]
      by_cases h1 : c = '/'
      · rw [if_pos h1, if_pos h1]
        exact ih cs out dotdot (by omega)
      · rw [if_neg h1, if_neg h1]
        by_cases h2 : c = '.' ∧ (cs = [] ∨ cs.head? = some '/')
        · rw [if_pos h2, if_pos h2]
          exact ih cs out dotdot (by omega)
        · rw [if_neg h2, if_neg h2]
          by_cases h3 : c = '.' ∧ cs.head? = some '.' ∧ (cs.tail = [] ∨ cs.tail.head? = some '/')
          · rw [if_pos h3, if_pos h3]
            have htail : cs.tail.length ≤ fuel := by
              have := List.length_tail cs
              omega
            by_cases h4 : dotdot < out.length
            · rw [if_pos h4, if_pos h4]
              exact ih _ _ _ htail
            · rw [if_neg h4, if_neg h4]
              by_cases h5 : rooted = false
              · rw [if_pos h5, if_pos h5]
                exact ih _ _ _ htail
              · rw [if_neg h5, if_neg h5]
                exact ih _ _ _ htail
          · rw [if_neg h3, if_neg h3]
            have hdrop : ((c :: cs).dropWhile (fun x => x ≠ '/')).length ≤ fuel := by
              rw [List.dropWhile_cons, if_pos (by simpa using h1)]
              have h6 : (cs.dropWhile (fun x => x ≠ '/')).length ≤ cs.length :=
                (List.dropWhile_sublist _).length_le
              omega
            exact ih _ _ _ hdrop

/-- Any sufficient fuel computes the same result as the canonical fuel. -/
theorem cleanLoop_fuel_ge (rooted : Bool) (l out : List Char) (dotdot : Nat) :
    ∀ fuel, l.length ≤ fuel →
      cleanLoop rooted fuel l out dotdot = cleanLoop rooted l.length l out dotdot := by
  intro fuel
  induction fuel with
  | zero =>
    intro hf
    have : l.length = 0 := by omega
    rw [this]
  | succ fuel ih =>
    intro hf
    by_cases h : l.length ≤ fuel
    · rw [← cleanLoop_fuel_succ rooted fuel l out dotdot h, ih h]
    · have : l.length = fuel + 1 := by omega
      rw [this]

/-! ### Single steps of `cleanLoop` on clean input -/

/-- Running `takeWhile`/`dropWhile` through a separator-free block up to a
separator border. -/
theorem takeWhile_drop_border (l r : List Char) (hl : '/' ∉ l)
    (hr : r = [] ∨ r.head? = some '/') :
    (l ++ r).takeWhile (fun x => x ≠ '/') = l ∧
    (l ++ r).dropWhile (fun x => x ≠ '/') = r := by
  induction l with
  | nil =>
    rcases hr with hr | hr
    · subst hr
      exact ⟨rfl, rfl⟩
    · cases r with
      | nil => exact ⟨rfl, rfl⟩
      | cons b bs =>
        simp only [List.head?_cons, Option.some.injEq] at hr
        subst hr
        constructor
        · rw [List.nil_append, List.takeWhile_cons]
          simp
        · rw [List.nil_append, List.dropWhile_cons]
          simp
  | cons a l ih =>
    have ha : a ≠ '/' := fun h => hl (by simp [h])
    have hl2 : '/' ∉ l := fun h => hl (by simp [h])
    obtain ⟨ih1, ih2⟩ := ih hl2
    constructor
    · rw [List.cons_append, List.takeWhile_cons, if_pos (by simpa using ha), ih1]
    · rw [List.cons_append, List.dropWhile_cons, if_pos (by simpa using ha), ih2]

/-- The empty-element step: a leading separator is skipped. -/
theorem cleanLoop_slash (rooted : Bool) (rest out : List Char) (dotdot : Nat) :
    cleanLoop rooted ('/' :: rest).length ('/' :: rest) out dotdot
      = cleanLoop rooted rest.length rest out dotdot := by
  show cleanLoop rooted (rest.length + 1) ('/' :: rest) out dotdot = _
  simp only [cleanLoop]
  simp

/-- The real-element step: a clean element is copied after a separator
when the output is not in its initial state. -/
theorem cleanLoop_elem (rooted : Bool) (elem rest out : List Char) (dotdot : Nat)
    (hs : SimpleSeg elem) (hr : rest = [] ∨ rest.head? = some '/') :
    cleanLoop rooted (elem ++ rest).length (elem ++ rest) out dotdot
      = cleanLoop rooted rest.length rest
          ((if (rooted = true ∧ out.length ≠ 1) ∨ (rooted = false ∧ out.length ≠ 0)
              then out ++ ['/'] else out) ++ elem) dotdot := by
  obtain ⟨hne, hslash, hdot1, hdot2⟩ := hs
  cases elem with
  | nil => exact absurd rfl hne
  | cons c es =>
  have hcslash : c ≠ '/' := fun h => hslash (by simp [h])
  rw [List.cons_append, List.length_cons]
  simp only [cleanLoop]
  rw [if_neg hcslash]
  have hdotA : ¬ (c = '.' ∧ (es ++ rest = [] ∨ (es ++ rest).head? = some '/')) := by
    rintro ⟨hc, hcase⟩
    cases es with
    | nil => exact hdot1 (by simp [hc])
    | cons e es2 =>
      have hene : e ≠ '/' := fun h => hslash (by simp [h])
      rcases hcase with hcase | hcase
      · simp at hcase
      · simp only [List.cons_append, List.head?_cons, Option.some.injEq] at hcase
        exact hene hcase
  rw [if_neg hdotA]
  have hdotB : ¬ (c = '.' ∧ (es ++ rest).head? = some '.' ∧
      ((es ++ rest).tail = [] ∨ (es ++ rest).tail.head? = some '/')) := by
    rintro ⟨hc, hhead, htail⟩
    cases es with
    | nil =>
      simp only [List.nil_append] at hhead
      rcases hr with hr | hr
      · subst hr; simp at hhead
      · rw [hr] at hhead
        simp at hhead
    | cons e es2 =>
      simp only [List.cons_append, List.head?_cons, Option.some.injEq] at hhead
      subst hhead
      cases es2 with
      | nil =>
        exact hdot2 (by simp [hc])
      | cons e2 es3 =>
        have he2 : e2 ≠ '/' := fun h => hslash (by simp [h])
        simp only [List.cons_append, List.tail_cons] at htail
        rcases htail with htail | htail
        · simp at htail
        · simp only [List.cons_append, List.head?_cons, Option.some.injEq] at htail
          exact he2 htail
  rw [if_neg hdotB]
  obtain ⟨htake, hdrop⟩ := takeWhile_drop_border (c :: es) rest hslash hr
  rw [List.cons_append] at htake hdrop
  rw [htake, hdrop]
  have hfuel : rest.length ≤ (es ++ rest).length := by simp
  rw [cleanLoop_fuel_ge rooted rest _ dotdot _ hfuel]

/-- Processing one clean sequence in mid-output state appends it, with one
separator, to the output. -/
theorem cleanLoop_segs_cont {l : List Char} (hl : CleanSegs l) :
    ∀ (rooted : Bool) (out : List Char) (dotdot : Nat) (rest : List Char),
      (rest = [] ∨ rest.head? = some '/') →
      ((rooted = true ∧ out.length ≠ 1) ∨ (rooted = false ∧ out.length ≠ 0)) →
      cleanLoop rooted (l ++ rest).length (l ++ rest) out dotdot
        = cleanLoop rooted rest.length rest (out ++ '/' :: l) dotdot := by
  induction hl with
  | single s hs =>
    intro rooted out dotdot rest hr hcond
    rw [cleanLoop_elem rooted s rest out dotdot hs hr, if_pos hcond, List.append_assoc]
    rfl
  | cons s rest2 hs hrec ih =>
    intro rooted out dotdot rest hr hcond
    rw [List.append_assoc, List.cons_append]
    rw [cleanLoop_elem rooted s ('/' :: (rest2 ++ rest)) out dotdot hs (Or.inr rfl),
      if_pos hcond]
    rw [cleanLoop_slash]
    have hcond2 : (rooted = true ∧ ((out ++ ['/']) ++ s).length ≠ 1) ∨
        (rooted = false ∧ ((out ++ ['/']) ++ s).length ≠ 0) := by
      have hs1 : s.length ≠ 0 := fun h => hs.1 (List.length_eq_zero.mp h)
      cases rooted with
      | true =>
        exact Or.inl ⟨rfl, by
          simp only [List.length_append, List.length_cons, List.length_nil]
          omega⟩
      | false =>
        exact Or.inr ⟨rfl, by
          simp only [List.length_append, List.length_cons, List.length_nil]
          omega⟩
    rw [ih rooted ((out ++ ['/']) ++ s) dotdot rest hr hcond2]
    congr 1
    simp

/-- Processing a clean sequence from the initial unrooted state writes it
verbatim into the empty output. -/
theorem cleanLoop_segs_start {l : List Char} (hl : CleanSegs l) (rest : List Char)
    (hr : rest = [] ∨ rest.head? = some '/') (dotdot : Nat) :
    cleanLoop false (l ++ rest).length (l ++ rest) [] dotdot
      = cleanLoop false rest.length rest l dotdot := by
  cases hl with
  | single s hs =>
    rw [cleanLoop_elem false l rest [] dotdot hs hr,
      if_neg (by simp)]
    rfl
  | cons s rest2 hs hrec =>
    rw [List.append_assoc, List.cons_append]
    rw [cleanLoop_elem false s ('/' :: (rest2 ++ rest)) [] dotdot hs (Or.inr rfl),
      if_neg (by simp)]
    rw [cleanLoop_slash]
    have hcond : (false = true ∧ ([] ++ s).length ≠ 1) ∨
        (false = false ∧ ([] ++ s).length ≠ 0) := by
      have hs1 : s.length ≠ 0 := fun h => hs.1 (List.length_eq_zero.mp h)
      exact Or.inr ⟨rfl, by simpa using hs1⟩
    rw [cleanLoop_segs_cont hrec false ([] ++ s) dotdot rest hr hcond]
    simp

/-- Processing a clean sequence from the initial rooted state writes it
after the root separator. -/
theorem cleanLoop_segs_rooted {l : List Char} (hl : CleanSegs l) (rest : List Char)
    (hr : rest = [] ∨ rest.head? = some '/') (dotdot : Nat) :
    cleanLoop true (l ++ rest).length (l ++ rest) ['/'] dotdot
      = cleanLoop true rest.length rest ('/' :: l) dotdot := by
  cases hl with
  | single s hs =>
    rw [cleanLoop_elem true l rest ['/'] dotdot hs hr,
      if_neg (by simp)]
    rfl
  | cons s rest2 hs hrec =>
    rw [List.append_assoc, List.cons_append]
    rw [cleanLoop_elem true s ('/' :: (rest2 ++ rest)) ['/'] dotdot hs (Or.inr rfl),
      if_neg (by simp)]
    rw [cleanLoop_slash]
    have hcond : (true = true ∧ (['/'] ++ s).length ≠ 1) ∨
        (true = false ∧ (['/'] ++ s).length ≠ 0) := by
      have hs1 : s.length ≠ 0 := fun h => hs.1 (List.length_eq_zero.mp h)
      exact Or.inl ⟨rfl, by
        simp only [List.length_append, List.length_cons, List.length_nil]
        omega⟩
    rw [cleanLoop_segs_cont hrec true (['/'] ++ s) dotdot rest hr hcond]
    simp

/-! ### `Clean` on already-clean paths -/

/-- Go `Clean` leaves an unrooted clean path unchanged. -/
theorem cleanChars_segs {l : List Char} (hl : CleanSegs l) : cleanChars l = l := by
  cases hmatch : l with
  | nil => exact absurd hmatch hl.ne_nil
  | cons c cs =>
    subst hmatch
    have hc : c ≠ '/' := by
      intro h
      exact hl.head_ne_slash (by rw [h]; rfl)
    simp only [cleanChars]
    rw [if_neg hc]
    have hstart := cleanLoop_segs_start hl [] (Or.inl rfl) 0
    rw [List.append_nil] at hstart
    rw [hstart]
    rw [show cleanLoop false ([] : List Char).length [] (c :: cs) 0 = c :: cs from rfl]
    rw [if_neg (by simp)]

/-- Go `Clean` leaves a rooted clean path unchanged. -/
theorem cleanChars_rooted {l : List Char} (hl : CleanSegs l) :
    cleanChars ('/' :: l) = '/' :: l := by
  simp only [cleanChars]
  rw [if_true]
  have hstart := cleanLoop_segs_rooted hl [] (Or.inl rfl) 1
  rw [List.append_nil] at hstart
  rw [hstart]
  rw [show cleanLoop true ([] : List Char).length [] ('/' :: l) 1 = '/' :: l from rfl]
  rw [if_neg (by simp)]

/-- Go `Clean` collapses the doubled separator produced by joining a
separator-terminated prefix with one more clean element. -/
theorem cleanChars_double {l k : List Char} (hl : CleanSegs l) (hk : SimpleSeg k) :
    cleanChars (l ++ '/' :: '/' :: k) = (l ++ ['/']) ++ k := by
  cases hmatch : l with
  | nil => exact absurd hmatch hl.ne_nil
  | cons c cs =>
    subst hmatch
    have hc : c ≠ '/' := by
      intro h
      exact hl.head_ne_slash (by rw [h]; rfl)
    rw [List.cons_append]
    simp only [cleanChars]
    rw [if_neg hc]
    have hstart := cleanLoop_segs_start hl ('/' :: '/' :: k) (Or.inr rfl) 0
    rw [List.cons_append] at hstart
    rw [hstart]
    rw [cleanLoop_slash, cleanLoop_slash]
    have helem := cleanLoop_elem false k [] (c :: cs) 0 hk (Or.inl rfl)
    rw [List.append_nil] at helem
    rw [helem]
    rw [if_pos (Or.inr ⟨rfl, by simp⟩)]
    rw [show cleanLoop false ([] : List Char).length []
      (((c :: cs) ++ ['/']) ++ k) 0 = ((c :: cs) ++ ['/']) ++ k from rfl]
    rw [if_neg (by simp [hk.1])]

/-- The rooted variant of `cleanChars_double`. -/
theorem cleanChars_double_rooted {l k : List Char} (hl : CleanSegs l) (hk : SimpleSeg k) :
    cleanChars ('/' :: (l ++ '/' :: '/' :: k)) = (('/' :: l) ++ ['/']) ++ k := by
  simp only [cleanChars]
  rw [if_true]
  rw [cleanLoop_segs_rooted hl ('/' :: '/' :: k) (Or.inr rfl) 1]
  rw [cleanLoop_slash, cleanLoop_slash]
  have helem := cleanLoop_elem true k [] ('/' :: l) 1 hk (Or.inl rfl)
  rw [List.append_nil] at helem
  rw [helem]
  have hlne : l.length ≠ 0 := fun h => hl.ne_nil (List.length_eq_zero.mp h)
  rw [if_pos (Or.inl ⟨rfl, by simp [hlne]⟩)]
  rw [show cleanLoop true ([] : List Char).length []
    ((('/' :: l) ++ ['/']) ++ k) 1 = (('/' :: l) ++ ['/']) ++ k from rfl]
  rw [if_neg (by simp)]

/-! ### `TrimRight` on separator-terminated prefixes -/

theorem rstrip_concat_slash {l : List Char} (hlast : l.getLast? ≠ some '/') :
    (rstripSlash ⟨l ++ ['/']⟩).data = l := by
  show ((l ++ ['/']).reverse.dropWhile (fun c => c = '/')).reverse = l
  rw [List.reverse_append, show (['/'] : List Char).reverse = ['/'] from rfl,
    List.singleton_append]
  rw [List.dropWhile_cons, if_pos (by simp)]
  have hstop : l.reverse.dropWhile (fun c => c = '/') = l.reverse := by
    cases hrev : l.reverse with
    | nil => rfl
    | cons b bs =>
      have hb : b ≠ '/' := by
        intro h
        apply hlast
        rw [← List.head?_reverse, hrev, h]
        rfl
      rw [List.dropWhile_cons, if_neg (by simp [hb])]
  rw [hstop, List.reverse_reverse]

theorem rstrip_rooted_concat {l : List Char} (hne : l ≠ [])
    (hlast : l.getLast? ≠ some '/') :
    (rstripSlash ⟨'/' :: (l ++ ['/'])⟩).data = '/' :: l := by
  show (('/' :: (l ++ ['/'])).reverse.dropWhile (fun c => c = '/')).reverse = '/' :: l
  rw [List.reverse_cons, List.reverse_append,
    show (['/'] : List Char).reverse = ['/'] from rfl, List.singleton_append,
    List.cons_append]
  rw [List.dropWhile_cons, if_pos (by simp)]
  have hstop : (l.reverse ++ ['/']).dropWhile (fun c => c = '/') = l.reverse ++ ['/'] := by
    cases hrev : l.reverse with
    | nil => exact absurd (by simpa using hrev) hne
    | cons b bs =>
      have hb : b ≠ '/' := by
        intro h
        apply hlast
        rw [← List.head?_reverse, hrev, h]
        rfl
      rw [List.cons_append, List.dropWhile_cons, if_neg (by simp [hb])]
  rw [hstop, List.reverse_append, List.reverse_reverse,
    show (['/'] : List Char).reverse = ['/'] from rfl, List.singleton_append]


/-! ### Path derivation on clean input -/

/-- Go `path.Join` of a good prefix and one clean element is concatenation. -/
theorem pathJoin_good (p k : String) (hp : GoodPfx p) (hk : SimpleSeg k.data) :
    pathJoin p k = p ++ k := by
  have hkne : k ≠ "" := fun h => hk.1 (by rw [h])
  rcases hp with hp | ⟨l, hl, hshape | hshape⟩
  · subst hp
    unfold pathJoin
    rw [if_pos rfl, if_neg hkne]
    apply str_eq_of_data_eq
    show cleanChars k.data = ("" ++ k).data
    rw [cleanChars_segs (CleanSegs.single _ hk)]
    rw [String.data_append]
    rfl
  · have hpne : p ≠ "" := by
      intro h
      rw [h] at hshape
      simp at hshape
    unfold pathJoin
    rw [if_neg hpne]
    apply str_eq_of_data_eq
    show cleanChars ((p ++ "/" ++ k).data) = (p ++ k).data
    have hdata : (p ++ "/" ++ k).data = l ++ '/' :: '/' :: k.data := by
      rw [String.data_append, String.data_append, hshape,
        show ("/" : String).data = ['/'] from rfl]
      simp
    rw [hdata, cleanChars_double hl hk, String.data_append, hshape]
  · have hpne : p ≠ "" := by
      intro h
      rw [h] at hshape
      simp at hshape
    unfold pathJoin
    rw [if_neg hpne]
    apply str_eq_of_data_eq
    show cleanChars ((p ++ "/" ++ k).data) = (p ++ k).data
    have hdata : (p ++ "/" ++ k).data = '/' :: (l ++ '/' :: '/' :: k.data) := by
      rw [String.data_append, String.data_append, hshape,
        show ("/" : String).data = ['/'] from rfl]
      simp
    rw [hdata, cleanChars_double_rooted hl hk, String.data_append, hshape]
    simp

/-- Go `path.Join` of an already-clean directory and one clean element is
concatenation with a separator. -/
theorem pathJoin_clean_dir (dir k : String)
    (hdir : CleanSegs dir.data ∨ ∃ core, CleanSegs core ∧ dir.data = '/' :: core)
    (hk : SimpleSeg k.data) :
    pathJoin dir k = dir ++ "/" ++ k := by
  have hdirne : dir ≠ "" := by
    intro h
    rcases hdir with hd | ⟨core, _, hd⟩
    · exact hd.ne_nil (by rw [h])
    · rw [h] at hd
      simp at hd
  unfold pathJoin
  rw [if_neg hdirne]
  apply str_eq_of_data_eq
  show cleanChars ((dir ++ "/" ++ k).data) = (dir ++ "/" ++ k).data
  rcases hdir with hd | ⟨core, hcore, hd⟩
  · have hdata : (dir ++ "/" ++ k).data = dir.data ++ '/' :: k.data := by
      rw [String.data_append, String.data_append,
        show ("/" : String).data = ['/'] from rfl]
      simp
    rw [hdata]
    exact cleanChars_segs (hd.snoc_seg _ hk)
  · have hdata : (dir ++ "/" ++ k).data = '/' :: (core ++ '/' :: k.data) := by
      rw [String.data_append, String.data_append, hd,
        show ("/" : String).data = ['/'] from rfl]
      simp
    rw [hdata]
    exact cleanChars_rooted (hcore.snoc_seg _ hk)

/-- The joined index marker block `__index_<name>` is one clean element,
for a separator-free index name. -/
theorem simpleSeg_index_block {iname : List Char} (hn : '/' ∉ iname) :
    SimpleSeg ("__index_".data ++ iname) := by
  refine ⟨?_, ?_, ?_, ?_⟩
  · intro h
    have : ('_' : Char) ∈ "__index_".data ++ iname :=
      List.mem_append.mpr (Or.inl (by decide))
    rw [h] at this
    simp at this
  · intro hmem
    rcases List.mem_append.mp hmem with hm | hm
    · exact absurd hm (by decide)
    · exact hn hm
  · intro h
    have : ('_' : Char) ∈ "__index_".data ++ iname :=
      List.mem_append.mpr (Or.inl (by decide))
    rw [h] at this
    simp at this
  · intro h
    have : ('_' : Char) ∈ "__index_".data ++ iname :=
      List.mem_append.mpr (Or.inl (by decide))
    rw [h] at this
    simp at this

/-- Character data of `collection.indexDir`. -/
theorem indexDir_data (c : Collection) (iname ival : String) :
    (c.indexDir iname ival).data
      = (rstripSlash c.pfx).data ++ (("__index_".data ++ iname.data) ++ '/' :: ival.data) := by
  show (rstripSlash c.pfx ++ "__index_" ++ iname ++ "/" ++ ival).data = _
  rw [String.data_append, String.data_append, String.data_append, String.data_append,
    show ("/" : String).data = ['/'] from rfl]
  simp

/-- C4 counterexample: with an empty key the derived paths are the
CLEANED concatenations, not the plain ones — `path.Join` strips the
trailing separator. -/
theorem path_not_concat_cex :
    (⟨"jobs/", []⟩ : Collection).path "" ≠ "jobs/" ++ "" ∧
    (⟨"jobs/", []⟩ : Collection).indexPath "F" "v" ""
      ≠ rstripSlash "jobs/" ++ "__index_" ++ "F" ++ "/" ++ "v" ++ "/" ++ "" := by
  refine ⟨by decide, by decide⟩

/-- C4 (amended): for a well-formed prefix (empty, or a clean
separator-terminated path) and for keys and index values that are single
clean path elements (non-empty, separator-free, not a dot element) and a
separator-free index name, the derived primary path IS the string
concatenation `prefix + key`, and the derived index path IS
`rstrip(prefix, "/") + "__index_" + indexName + "/" + indexValue + "/" +
key`.  (With an empty or separator-containing key or value the derived
paths are instead the path-cleaned forms of those concatenations.) -/
theorem paths_eq_concat (c : Collection) (key iname ival : String)
    (hp : GoodPfx c.pfx) (hk : SimpleSeg key.data) (hv : SimpleSeg ival.data)
    (hn : '/' ∉ iname.data) :
    c.path key = c.pfx ++ key ∧
    c.indexPath iname ival key
      = rstripSlash c.pfx ++ "__index_" ++ iname ++ "/" ++ ival ++ "/" ++ key := by
  constructor
  · exact pathJoin_good c.pfx key hp hk
  · show pathJoin (c.indexDir iname ival) key = _
    have hblock := simpleSeg_index_block hn
    have hidx : '/' ∉ "__index_".data ++ iname.data := hblock.2.1
    have hdot : ∃ a ∈ "__index_".data ++ iname.data, a ≠ '.' :=
      ⟨'_', List.mem_append.mpr (Or.inl (by decide)), by decide⟩
    have hddata := indexDir_data c iname ival
    have hdir : CleanSegs (c.indexDir iname ival).data ∨
        ∃ core, CleanSegs core ∧ (c.indexDir iname ival).data = '/' :: core := by
      rcases hp with hp | ⟨l, hl, hshape | hshape⟩
      · left
        rw [hddata, hp]
        rw [show (rstripSlash "").data = [] from rfl, List.nil_append]
        exact (CleanSegs.single _ hblock).snoc_seg _ hv
      · left
        have hrs : (rstripSlash c.pfx).data = l := by
          rw [str_eq_of_data_eq hshape]
          exact rstrip_concat_slash hl.getLast_ne_slash
        rw [hddata, hrs, ← List.append_assoc]
        exact (hl.append_chars _ hidx hdot).snoc_seg _ hv
      · right
        have hrs : (rstripSlash c.pfx).data = '/' :: l := by
          rw [str_eq_of_data_eq hshape]
          exact rstrip_rooted_concat hl.ne_nil hl.getLast_ne_slash
        refine ⟨(l ++ ("__index_".data ++ iname.data)) ++ '/' :: ival.data, ?_, ?_⟩
        · exact (hl.append_chars _ hidx hdot).snoc_seg _ hv
        · rw [hddata, hrs]
          simp
    exact pathJoin_clean_dir _ key hdir hk

/-- Witness for C4 (amended) at the collection with prefix `jobs/`. -/
theorem paths_eq_concat_witness :
    GoodPfx cW.pfx ∧ SimpleSeg ("k1" : String).data ∧ SimpleSeg ("v1" : String).data ∧
    '/' ∉ ("F" : String).data ∧
    (cW.path "k1" = cW.pfx ++ "k1" ∧
      cW.indexPath "F" "v1" "k1"
        = rstripSlash cW.pfx ++ "__index_" ++ "F" ++ "/" ++ "v1" ++ "/" ++ "k1") :=
  have hp : GoodPfx cW.pfx :=
    Or.inr ⟨"jobs".data, CleanSegs.single _ (by decide), Or.inl (by decide)⟩
  ⟨hp, by decide, by decide, by decide,
    paths_eq_concat cW "k1" "F" "v1" hp (by decide) (by decide) (by decide)⟩
